import Mathlib

/-!
Verification of the cratri_unpac image decoder (src/main.rs).

The definitions below are a shallow embedding of the Rust source:
bytes are `Nat` values (< 256 in well-formed inputs), machine subtraction
on `u8` is explicit arithmetic modulo 256, fallible operations (slice
index panics, usize-underflow panics, `todo!()` branches, `HashMap`
index panics) are modelled by `Option`/`Except` with `none`/`error`
standing for the abort, and in-place loops are explicit state passing.
-/

namespace CratriUnpac

/-- A decoded RGBA pixel (r, g, b, a), each component a byte. -/
abbrev Pixel := Nat × Nat × Nat × Nat

/-- `u16::from_le_bytes([b0, b1])`: little-endian 16-bit reassembly. -/
def le16 (b0 b1 : Nat) : Nat := b0 + 256 * b1

/-! ## Decompressor — `GeImage::decompress`, src/main.rs lines 22-62 -/

/-- Long-form back-reference token (bit 3 of the 16-bit word clear), from
lines 46-48: `tmp` is the 24-bit value `word << 8 | extra_byte`; the result
is `(repetitions, look_behind)` =
`(((tmp & 0x0ffc) >> 2) + 1 << 2 | tmp & 3, tmp >> 12)`. -/
def backrefLong (tmp : Nat) : Nat × Nat :=
  (((((tmp &&& 0xffc) >>> 2) + 1) <<< 2) ||| (tmp &&& 3), tmp >>> 12)

/-- Short-form back-reference token (bit 3 set), from line 50:
`((tmp & 7) + 4, tmp >> 4)`. -/
def backrefShort (w : Nat) : Nat × Nat :=
  ((w &&& 7) + 4, w >>> 4)

/-- The literal-run copy loop, lines 36-41: copy up to `reps` bytes from
`input` at `ip` to `out` at `op`, stopping early when the output is full.
An out-of-range input read (a panic in the source) is `none`.
Returns the final output, output position and input position. -/
def litCopy (input : List Nat) : List Nat → Nat → Nat → Nat → Option (List Nat × Nat × Nat)
  | out, op, ip, 0 => some (out, op, ip)
  | out, op, ip, reps + 1 =>
    if op < out.length then
      match input[ip]? with
      | some v => litCopy input (out.set op v) (op + 1) (ip + 1) reps
      | none => none
    else
      some (out, op, ip)

/-- The back-reference copy loop, lines 53-58: copy up to `reps` bytes
inside `out`, reading at `p` and writing at `op`, both advancing (overlap
intended). An out-of-range read is `none`. -/
def lzCopy : List Nat → Nat → Nat → Nat → Option (List Nat × Nat)
  | out, op, _, 0 => some (out, op)
  | out, op, p, reps + 1 =>
    if op < out.length then
      match out[p]? with
      | some v => lzCopy (out.set op v) (op + 1) (p + 1) reps
      | none => none
    else
      some (out, op)

/-- The main decompression loop, lines 27-60.  State: output buffer,
output position, input position, 9-bit rolling control word.  `fuel`
bounds the iteration count; every iteration that recurses consumes at
least one input byte, so `input.length + 1` fuel is never exhausted.
`none` models the panics of the source: out-of-range `input[...]` reads
and the usize underflow `output_pos - look_behind` when the distance
reaches before the output start. -/
def decompressLoop (input : List Nat) : Nat → List Nat → Nat → Nat → Nat → Option (List Nat)
  | 0, _, _, _, _ => none
  | fuel + 1, out, op, ip, control0 =>
    if op < out.length then
      let c1 := control0 >>> 1
      let refill : Option (Nat × Nat) :=
        if c1 &&& 0x0100 = 0 then
          match input[ip]? with
          | some b => some (b ||| 0xff00, ip + 1)
          | none => none
        else
          some (c1, ip)
      match refill with
      | none => none
      | some (control, ip1) =>
        if control &&& 1 = 0 then
          match input[ip1]? with
          | none => none
          | some reps =>
            match litCopy input out op (ip1 + 1) reps with
            | none => none
            | some (out2, op2, ip2) => decompressLoop input fuel out2 op2 ip2 control
        else
          match input[ip1]?, input[ip1 + 1]? with
          | some b0, some b1 =>
            let w := le16 b0 b1
            if w &&& 8 = 0 then
              match input[ip1 + 2]? with
              | none => none
              | some b2 =>
                let t := backrefLong ((w <<< 8) ||| b2)
                if t.2 ≤ op then
                  match lzCopy out op (op - t.2) t.1 with
                  | none => none
                  | some (out2, op2) => decompressLoop input fuel out2 op2 (ip1 + 3) control
                else none
            else
              let t := backrefShort w
              if t.2 ≤ op then
                match lzCopy out op (op - t.2) t.1 with
                | none => none
                | some (out2, op2) => decompressLoop input fuel out2 op2 (ip1 + 2) control
              else none
          | _, _ => none
    else
      some out

/-- `GeImage::decompress(input, size_orig)`: expand the token stream into
a zero-initialised buffer of `sizeOrig` bytes.  `none` models a panic. -/
def decompress (input : List Nat) (sizeOrig : Nat) : Option (List Nat) :=
  decompressLoop input (input.length + 1) (List.replicate sizeOrig 0) 0 0 0

/-! ## Planar filter — `GeImage::apply_filter`, src/main.rs lines 64-95 -/

/-- Reading a byte through the `*const [i8]` view (line 67-69): the
two's-complement value of the byte. -/
def i8val (b : Nat) : Int :=
  if b < 128 then (b : Int) else (b : Int) - 256

/-- `i32::clamp(0, 255)` followed by `as u8` (exact after the clamp). -/
def clampByte (x : Int) : Nat :=
  (max 0 (min x 255)).toNat

/-- One output channel, lines 81-84: `(base + coeff >> 7).clamp(0, 255)`
where `base = (luma_byte as i32) << 7`.  The i32 `>> 7` is an arithmetic
shift, i.e. floor division by 128. -/
def planarChannel (lum : Nat) (coeff : Int) : Nat :=
  clampByte (Int.fdiv ((lum : Int) * 128 + coeff) 128)

/-- A bounds-checked store `output[i] = v`; an out-of-range store is a
panic in the source, modelled by `none`. -/
def writeByte (out : List Nat) (i v : Nat) : Option (List Nat) :=
  if i < out.length then some (out.set i v) else none

/-- The body of `for i in [0, 1, width, width + 1]` (lines 80-85): read
the luma byte at `plane3 + i` and store the three clamped channels at
`op + 3*i`, `op + 3*i + 1`, `op + 3*i + 2`. -/
def planarWriteAt (data : List Nat) (plane3 op i : Nat) (b g r : Int) (out : List Nat) : Option (List Nat) :=
  (data[plane3 + i]?).bind fun lum =>
    (writeByte out (op + 3 * i) (planarChannel lum b)).bind fun out1 =>
    (writeByte out1 (op + 3 * i + 1) (planarChannel lum g)).bind fun out2 =>
    writeByte out2 (op + 3 * i + 2) (planarChannel lum r)

/-- One 2x2 block, lines 77-85.  `chroma` is how a chroma-plane byte is
turned into an integer: the source reads planes 1 and 2 through a
`*const [i8]` view, i.e. `chroma = i8val`; the all-unsigned alternative
reading used for comparison passes the plain byte value instead. -/
def planarBlock (chroma : Nat → Int) (data : List Nat) (width plane1 plane2 plane3 op : Nat) (out : List Nat) : Option (List Nat) :=
  (data[plane1]?).bind fun a1 =>
  (data[plane2]?).bind fun a2 =>
    let b := 226 * chroma a1
    let g := -43 * chroma a1 - 89 * chroma a2
    let r := 179 * chroma a2
    (planarWriteAt data plane3 op 0 b g r out).bind fun o1 =>
    (planarWriteAt data plane3 op 1 b g r o1).bind fun o2 =>
    (planarWriteAt data plane3 op width b g r o2).bind fun o3 =>
    planarWriteAt data plane3 op (width + 1) b g r o3

/-- The inner loop `for _ in 0..width >> 1` (lines 76-90): one row of
blocks; per block `plane1 += 1; plane2 += 1; plane3 += 2; output_pos += 6`. -/
def planarRow (chroma : Nat → Int) (data : List Nat) (width : Nat) : Nat → Nat → Nat → Nat → Nat → List Nat → Option (List Nat × Nat × Nat × Nat × Nat)
  | 0, p1, p2, p3, op, out => some (out, p1, p2, p3, op)
  | n + 1, p1, p2, p3, op, out =>
    match planarBlock chroma data width p1 p2 p3 op out with
    | none => none
    | some out1 => planarRow chroma data width n (p1 + 1) (p2 + 1) (p3 + 2) (op + 6) out1

/-- The outer loop `for _ in 0..height >> 1` (lines 75-93): after each
block row, `plane3 += width; output_pos += stride` with `stride = width * 3`. -/
def planarRows (chroma : Nat → Int) (data : List Nat) (width : Nat) : Nat → Nat → Nat → Nat → Nat → List Nat → Option (List Nat)
  | 0, _, _, _, _, out => some out
  | m + 1, p1, p2, p3, op, out =>
    match planarRow chroma data width (width >>> 1) p1 p2 p3 op out with
    | none => none
    | some (out1, q1, q2, q3, oq) =>
      planarRows chroma data width m q1 q2 (q3 + width) (oq + width * 3) out1

/-- `GeImage::apply_filter(data, width, height)`: planes at offsets 0,
`size >> 2` and `size >> 1` with `size = width * height`; output is
`height * stride` zero-initialised bytes, `stride = width * 3`. -/
def applyFilter (data : List Nat) (width height : Nat) : Option (List Nat) :=
  planarRows i8val data width (height >>> 1) 0 ((width * height) >>> 2) ((width * height) >>> 1) 0
    (List.replicate (height * (width * 3)) 0)

/-- The same loops with the chroma planes read as unsigned bytes: the
alternative all-unsigned reading of the buffer, for comparison with the
source's signed (`as i8`) reading. -/
def applyFilterU (data : List Nat) (width height : Nat) : Option (List Nat) :=
  planarRows (fun b => (b : Int)) data width (height >>> 1) 0 ((width * height) >>> 2) ((width * height) >>> 1) 0
    (List.replicate (height * (width * 3)) 0)

/-! ## Delta filter — `GeImage::apply_delta_filter`, src/main.rs lines 97-130 -/

/-- Wrapping `u8` subtraction `a - b` (the release-mode semantics of the
source, and the arithmetic the encoder inverts): `(a - b) mod 256`. -/
def sub8 (a b : Nat) : Nat :=
  (a % 256 + (256 - b % 256)) % 256

/-- Mode 1 (horizontal), lines 110-114: for `x` in `channels..stride`, in
order, `row[x] = row[x - channels] - row[x]`, reading the already-updated
left neighbour.  `x` is the next position, the last argument the number
of positions left. -/
def deltaPass1 (channels : Nat) : List Nat → Nat → Nat → List Nat
  | row, _, 0 => row
  | row, x, n + 1 =>
    deltaPass1 channels (row.set x (sub8 (row.getD (x - channels) 0) (row.getD x 0))) (x + 1) n

/-- Mode 4 (average), lines 120-124: for `x` in `channels..stride`, in
order, `row[x] = ((prev[x] as u16 + row[x - channels] as u16) >> 1) as u8 - row[x]`. -/
def deltaPass4 (channels : Nat) (prev : List Nat) : List Nat → Nat → Nat → List Nat
  | row, _, 0 => row
  | row, x, n + 1 =>
    deltaPass4 channels prev
      (row.set x (sub8 (((prev.getD x 0 + row.getD (x - channels) 0) >>> 1) % 256) (row.getD x 0)))
      (x + 1) n

/-- One row of the delta filter, lines 106-127.  `prev` is the already
reconstructed row above (`none` for row 0, where the source computes
`(y - 1) * stride` — a usize underflow — and dereferences the previous
row: modes 2 and 4 on row 0 are modelled as the abort `none`).  The
`todo!()` branch for an unknown mode byte is `none`. -/
def deltaRow (channels stride : Nat) (prev : Option (List Nat)) (cur : List Nat) (mode : Nat) : Option (List Nat) :=
  match mode with
  | 1 => some (deltaPass1 channels cur channels (stride - channels))
  | 2 =>
    match prev with
    | none => none
    | some p => some ((List.range stride).map fun x => sub8 (p.getD x 0) (cur.getD x 0))
  | 4 =>
    match prev with
    | none => none
    | some p => some (deltaPass4 channels p cur channels (stride - channels))
  | _ => none

/-- Split the flat pixel data into `n` consecutive rows of `stride` bytes. -/
def chunkRows (stride : Nat) : Nat → List Nat → List (List Nat)
  | 0, _ => []
  | n + 1, l => l.take stride :: chunkRows stride n (l.drop stride)

/-- The row loop `for y in 0..height` (lines 105-129), threading each
reconstructed row as the `prev` of the next. -/
def applyDeltaRows (channels stride : Nat) : Option (List Nat) → List Nat → List (List Nat) → Option (List (List Nat))
  | _, _, [] => some []
  | prev, deltas, cur :: rest =>
    match deltas with
    | [] => none
    | m :: ds =>
      match deltaRow channels stride prev cur m with
      | none => none
      | some cur2 =>
        match applyDeltaRows channels stride (some cur2) ds rest with
        | none => none
        | some rows => some (cur2 :: rows)

/-- `GeImage::apply_delta_filter(data, deltas, width, height, channels)`:
reconstruct `height` rows of `stride = width * channels` bytes in place.
Data shorter than the rows the source would touch is the abort `none`. -/
def applyDeltaFilter (data deltas : List Nat) (width height channels : Nat) : Option (List Nat) :=
  let stride := width * channels
  if stride * height ≤ data.length then
    (applyDeltaRows channels stride none deltas (chunkRows stride height data)).map List.flatten
  else none

/-- The per-byte predictor of each delta mode (the value the encoded byte
is subtracted from), read off lines 110-124: mode 1 predicts the left
neighbour, mode 2 the byte above, mode 4 their truncated mean. -/
def deltaPredictor (mode above left : Nat) : Option Nat :=
  match mode with
  | 1 => some left
  | 2 => some above
  | 4 => some (((above + left) >>> 1) % 256)
  | _ => none

/-! ## Main-image decoding — `GeImage::decode_main`, src/main.rs lines 132-187 -/

/-- Line 166: `u16::from_le_bytes([data[2], data[3]]) as usize >> 3`,
the channel count of a delta-filtered main image. -/
def deltaChannels (data : List Nat) : Nat :=
  le16 (data.getD 2 0) (data.getD 3 0) >>> 3

/-- The `ImageBuffer::from_fn` closure of `decode_main` (lines 155-183),
reading pixels row-major with a running cursor: bytes are consumed in
B,G,R,[A] order, three per pixel with alpha fixed at 0xff unless
`channels = 4`.  `pos` is the cursor, the last argument the number of
pixels left. -/
def readPixelsFrom (fd : List Nat) (channels : Nat) : Nat → Nat → List Pixel
  | _, 0 => []
  | pos, n + 1 =>
    let b := fd.getD pos 0
    let g := fd.getD (pos + 1) 0
    let r := fd.getD (pos + 2) 0
    if channels = 4 then
      (r, g, b, fd.getD (pos + 3) 0) :: readPixelsFrom fd channels (pos + 4) n
    else
      (r, g, b, 255) :: readPixelsFrom fd channels (pos + 3) n

/-- The two recognised filter kinds of a main image header. -/
inductive FilterKind where
  | planar
  | delta
deriving DecidableEq

/-- The filter-kind dispatch of `decode_main` (lines 151-186): 2 is the
planar filter, 3 the delta filter, anything else hits `todo!()` — `none`. -/
def filterKindOf (t : Nat) : Option FilterKind :=
  match t with
  | 2 => some FilterKind.planar
  | 3 => some FilterKind.delta
  | _ => none

/-- The delta branch of `decode_main` (lines 165-183): channel count from
bytes 2-3 of the decompressed buffer, `split_at_mut(8 + height)` giving
the mode-selector bytes `_data[8..]` and the pixel data, then the
in-place delta filter and the pixel assembly. -/
def decodeMainDelta (data : List Nat) (width height : Nat) : Option (List Pixel) :=
  let channels := deltaChannels data
  let hdr := data.take (8 + height)
  let pix := data.drop (8 + height)
  (applyDeltaFilter pix (hdr.drop 8) width height channels).map fun fd =>
    readPixelsFrom fd channels 0 (width * height)

/-! ## Sub-image decoding — `GeImage::decode_sub`, src/main.rs lines 189-241 -/

/-- Like `readPixelsFrom`, but for the sub-image composite loop (lines
222-238): when `channels` is not 4 the alpha operand is `let mut a = 0`,
so the XOR contributes nothing to the base alpha. -/
def readSubPixels (fd : List Nat) (channels : Nat) : Nat → Nat → List Pixel
  | _, 0 => []
  | pos, n + 1 =>
    let b := fd.getD pos 0
    let g := fd.getD (pos + 1) 0
    let r := fd.getD (pos + 2) 0
    if channels = 4 then
      (r, g, b, fd.getD (pos + 3) 0) :: readSubPixels fd channels (pos + 4) n
    else
      (r, g, b, 0) :: readSubPixels fd channels (pos + 3) n

/-- The decoded-image cache, a name-keyed map modelled as an association
list. -/
def lookupImage {α : Type} (images : List (String × α)) (key : String) : Option α :=
  (images.find? fun kv => kv.1 == key).map fun kv => kv.2

/-- ASCII case folding of one character, the effect of
`str::to_lowercase` on the ASCII asset names stored in the 32-byte
archive name fields. -/
def lowerChar (c : Char) : Char :=
  if 65 ≤ c.toNat ∧ c.toNat ≤ 90 then Char.ofNat (c.toNat + 32) else c

/-- `name.to_lowercase()` on an ASCII name. -/
def lowerName (s : String) : String :=
  String.mk (s.data.map lowerChar)

/-- The base-image lookup of `decode_sub` (lines 217-220):
`images[&name.to_lowercase()]`.  The `HashMap` `Index` panics when the
key is absent — modelled by `none`. -/
def decodeSubBase {α : Type} (images : List (String × α)) (name : String) : Option α :=
  lookupImage images (lowerName name)

/-- `Rgba::apply2(_, BitXor::bitxor)`: channel-wise XOR of two pixels. -/
def xorPixel (p q : Pixel) : Pixel :=
  (p.1 ^^^ q.1, p.2.1 ^^^ q.2.1, p.2.2.1 ^^^ q.2.2.1, p.2.2.2 ^^^ q.2.2.2)

/-- The composite loop of `decode_sub` (lines 222-239) as a function on
pixel coordinates: inside the window `[x, x + width) x [y, y + height)`
the base pixel is XORed with the decoded sub-image pixel
`(v - y) * width + (u - x)`; every other pixel is untouched.  Each window
pixel is written exactly once, so the in-place loop and this pointwise
description agree. -/
def composeSub (base : Nat → Nat → Pixel) (sub : List Pixel) (x y width height : Nat) : Nat → Nat → Pixel :=
  fun u v =>
    if x ≤ u ∧ u < x + width ∧ y ≤ v ∧ v < y + height then
      xorPixel (base u v) (sub.getD ((v - y) * width + (u - x)) (0, 0, 0, 0))
    else
      base u v

/-! ## Per-entry orchestration — `AssetLoader::save`, src/main.rs lines 296-339 -/

/-- The per-entry loop of `save`, with each entry's fallible processing
abstracted to its `Except` result: the source applies `?` to every
decode (lines 310, 334), so the first error is returned immediately and
no later entry is processed.  On success, returns the names finished in
order. -/
def saveEntries {ε α : Type} : List (String × Except ε α) → Except ε (List String)
  | [] => Except.ok []
  | (_, Except.error e) :: _ => Except.error e
  | (name, Except.ok _) :: rest =>
    match saveEntries rest with
    | Except.error e => Except.error e
    | Except.ok done => Except.ok (name :: done)

/-- The two recognised image magics of an archive entry. -/
inductive EntryKind where
  | mainImage
  | subImage
deriving DecidableEq

/-- The magic dispatch of `save` (lines 308-321): `GE \x20\x00` is a main
image, `PGD3` a sub image, anything else hits `todo!()` — `none`. -/
def entryKindOf (magic : List Nat) : Option EntryKind :=
  if magic = [0x47, 0x45, 0x20, 0x00] then some EntryKind.mainImage
  else if magic = [0x50, 0x47, 0x44, 0x33] then some EntryKind.subImage
  else none

/-! ## Spec-side definitions, for comparison with the source -/

/-- Modelled from the spec's words (section 4.1): the long-form
back-reference "builds a 20-bit value" with
`length = (((bits 2..11)+1)<<2 | low 2 bits) + 4` and
`distance = bits 12..19`. -/
def specBackrefLong (w b2 : Nat) : Nat × Nat :=
  let v := ((w <<< 8) ||| b2) % 2 ^ 20
  ((((((v &&& 0xffc) >>> 2) + 1) <<< 2) ||| (v &&& 3)) + 4, v >>> 12)

/-- Modelled from the spec's words (section 4.3): the channel count read
from the first two bytes of the decompressed buffer, as `value >> 3`. -/
def specDeltaChannels (data : List Nat) : Nat :=
  le16 (data.getD 0 0) (data.getD 1 0) >>> 3

/-! ## Supporting lemmas -/

theorem getD_set_eq {l : List Nat} {i v : Nat} (h : i < l.length) :
    (l.set i v).getD i 0 = v := by
  simp [List.getD_eq_getElem?_getD, List.getElem?_set_self h]

theorem getD_set_ne {l : List Nat} {i j v : Nat} (h : i ≠ j) :
    (l.set i v).getD j 0 = l.getD j 0 := by
  simp [List.getD_eq_getElem?_getD, List.getElem?_set_ne h]

theorem getD_replicate_zero (n i : Nat) : (List.replicate n (0 : Nat)).getD i 0 = 0 := by
  simp only [List.getD_eq_getElem?_getD, List.getElem?_replicate]
  split <;> rfl

theorem getElem_opt_of_lt {l : List Nat} {i : Nat} (h : i < l.length) :
    l[i]? = some (l.getD i 0) := by
  simp [List.getD_eq_getElem?_getD, List.getElem?_eq_getElem h]

theorem and_three_eq_mod (t : Nat) : t &&& 3 = t % 4 := by
  have h : (3 : Nat) = 2 ^ 2 - 1 := by norm_num
  have h2 : (4 : Nat) = 2 ^ 2 := by norm_num
  rw [h, h2, Nat.and_pow_two_sub_one_eq_mod]

theorem and_seven_eq_mod (t : Nat) : t &&& 7 = t % 8 := by
  have h : (7 : Nat) = 2 ^ 3 - 1 := by norm_num
  have h2 : (8 : Nat) = 2 ^ 3 := by norm_num
  rw [h, h2, Nat.and_pow_two_sub_one_eq_mod]

theorem and_ffc_shift (t : Nat) : (t &&& 0xffc) >>> 2 = t / 4 % 1024 := by
  have h2 : t / 4 = t >>> 2 := by rw [Nat.shiftRight_eq_div_pow]
  have h3 : t >>> 2 % 1024 = (t >>> 2) &&& 1023 := by
    have h4 : (1024 : Nat) = 2 ^ 10 := by norm_num
    have h5 : (1023 : Nat) = 2 ^ 10 - 1 := by norm_num
    rw [h4, h5, Nat.and_pow_two_sub_one_eq_mod]
  rw [h2, h3]
  apply Nat.eq_of_testBit_eq
  intro i
  rw [Nat.testBit_shiftRight, Nat.testBit_and, Nat.testBit_and, Nat.testBit_shiftRight]
  have hb : Nat.testBit 4092 (2 + i) = Nat.testBit 1023 i := by
    have hx : (4092 : Nat) = 1023 <<< 2 := by norm_num [Nat.shiftLeft_eq]
    rw [hx, Nat.testBit_shiftLeft]
    simp
  rw [hb]

theorem shl2_or_eq (a b : Nat) (h : b < 4) : (a <<< 2) ||| b = a * 4 + b := by
  have h4 : a <<< 2 = 2 ^ 2 * a := by rw [Nat.shiftLeft_eq]; ring
  have hb : b < 2 ^ 2 := h
  rw [h4, ← Nat.mul_add_lt_is_or hb a]
  ring

theorem backrefLong_arith (tmp : Nat) :
    backrefLong tmp = ((tmp / 4 % 1024 + 1) * 4 + tmp % 4, tmp / 4096) := by
  unfold backrefLong
  rw [and_three_eq_mod, and_ffc_shift, shl2_or_eq _ _ (by omega), Nat.shiftRight_eq_div_pow]

theorem backrefShort_arith (w : Nat) : backrefShort w = (w % 8 + 4, w / 16) := by
  unfold backrefShort
  rw [and_seven_eq_mod, Nat.shiftRight_eq_div_pow]

theorem lzCopy_parts : ∀ (reps : Nat) (out : List Nat) (op p : Nat) (res : List Nat) (q : Nat),
    lzCopy out op p reps = some (res, q) →
    res.length = out.length ∧ ∀ i, i < op → res.getD i 0 = out.getD i 0 := by
  intro reps
  induction reps with
  | zero =>
    intro out op p res q h
    simp only [lzCopy, Option.some.injEq, Prod.mk.injEq] at h
    obtain ⟨h1, _⟩ := h
    subst h1
    exact ⟨rfl, fun _ _ => rfl⟩
  | succ n ih =>
    intro out op p res q h
    simp only [lzCopy] at h
    by_cases hop : op < out.length
    · rw [if_pos hop] at h
      cases hred : out[p]? with
      | none => rw [hred] at h; simp at h
      | some v =>
        rw [hred] at h
        obtain ⟨hlen, hpres⟩ := ih _ _ _ _ _ h
        refine ⟨by rw [hlen, List.length_set], fun i hi => ?_⟩
        rw [hpres i (Nat.lt_succ_of_lt hi), getD_set_ne (by omega)]
    · rw [if_neg hop] at h
      simp only [Option.some.injEq, Prod.mk.injEq] at h
      obtain ⟨h1, _⟩ := h
      subst h1
      exact ⟨rfl, fun _ _ => rfl⟩

theorem lzCopy_total : ∀ (reps : Nat) (out : List Nat) (op p : Nat),
    p ≤ op → op + reps ≤ out.length →
    ∃ res, lzCopy out op p reps = some (res, op + reps) := by
  intro reps
  induction reps with
  | zero => intro out op p _ _; exact ⟨out, by simp [lzCopy]⟩
  | succ n ih =>
    intro out op p hp hlen
    have hop : op < out.length := by omega
    have hpl : p < out.length := by omega
    obtain ⟨res, hres⟩ :=
      ih (out.set op (out.getD p 0)) (op + 1) (p + 1) (by omega) (by rw [List.length_set]; omega)
    refine ⟨res, ?_⟩
    simp only [lzCopy]
    rw [if_pos hop, getElem_opt_of_lt hpl]
    have e : op + 1 + n = op + (n + 1) := by omega
    rw [← e]
    exact hres

theorem lzCopy_periodic : ∀ (reps : Nat) (out : List Nat) (op d : Nat) (res : List Nat),
    1 ≤ d → d ≤ op → op + reps ≤ out.length →
    lzCopy out op (op - d) reps = some (res, op + reps) →
    ∀ j, j < reps → res.getD (op + j) 0 = out.getD (op - d + j % d) 0 := by
  intro reps
  induction reps with
  | zero => intro _ _ _ _ _ _ _ _ j hj; omega
  | succ n ih =>
    intro out op d res hd hdop hlen hstep j hj
    have hop : op < out.length := by omega
    have hpl : op - d < out.length := by omega
    simp only [lzCopy] at hstep
    rw [if_pos hop, getElem_opt_of_lt hpl] at hstep
    have harith : op - d + 1 = op + 1 - d := by omega
    rw [harith] at hstep
    have e : op + (n + 1) = op + 1 + n := by omega
    rw [e] at hstep
    have hlen2 : op + 1 + n ≤ (out.set op (out.getD (op - d) 0)).length := by
      rw [List.length_set]; omega
    cases j with
    | zero =>
      obtain ⟨_, hpres⟩ := lzCopy_parts n _ _ _ _ _ hstep
      rw [Nat.add_zero, hpres op (by omega), getD_set_eq hop, Nat.zero_mod, Nat.add_zero]
    | succ j' =>
      have hj' : j' < n := by omega
      have hrec := ih (out.set op (out.getD (op - d) 0)) (op + 1) d res hd (by omega) hlen2 hstep j' hj'
      have e1 : op + (j' + 1) = op + 1 + j' := by omega
      rw [e1, hrec]
      have hkd : j' % d < d := Nat.mod_lt _ (by omega)
      have hdm := Nat.div_add_mod j' d
      by_cases hcase : j' % d + 1 = d
      · have e2 : op + 1 - d + j' % d = op := by omega
        rw [e2, getD_set_eq hop]
        have e3 : (j' + 1) % d = 0 := by
          have h5 : j' + 1 = d * (j' / d + 1) := by
            rw [Nat.mul_add]
            omega
          rw [h5, Nat.mul_mod_right]
        rw [e3, Nat.add_zero]
      · have e2 : op + 1 - d + j' % d = op - d + (j' % d + 1) := by omega
        have hne : op ≠ op + 1 - d + j' % d := by omega
        rw [getD_set_ne hne, e2]
        have e3 : (j' + 1) % d = j' % d + 1 := by
          have h5 : j' + 1 = d * (j' / d) + (j' % d + 1) := by omega
          rw [h5, Nat.mul_add_mod]
          exact Nat.mod_eq_of_lt (by omega)
        rw [e3]

/-! ## Claims -/

/-- Claim C1 (code bug): the spec requires `decompress` to return exactly
`declaredSize` bytes and to fail with a typed CorruptStream error — never
incorrect output or a crash — when a token would read past the end of the
input or a back-reference distance is 0 or reaches before the output
start.  The source has no error path at all: a well-formed stream does
produce exactly `declaredSize` bytes (first conjunct), but a distance-0
back-reference is accepted and silently copies the zero-initialised
output onto itself (second conjunct, input `[1, 15, 0]`: control bit 1,
short token `0x000f` with distance 0, output `[0,0,0,0]` with no error),
while an out-of-bounds input read (`decompress [] 1`) and a distance
reaching before the output start (`[1, 31, 0]`, distance 1 at position
0) are panics, modelled by `none`. -/
theorem decompress_error_handling_bug :
    decompress [2, 2, 171, 205, 40, 0] 6 = some [171, 205, 171, 205, 171, 205] ∧
    decompress [1, 15, 0] 4 = some [0, 0, 0, 0] ∧
    decompress [] 1 = none ∧
    decompress [1, 31, 0] 4 = none := by
  exact ⟨by decide, by decide, by decide, by decide⟩

/-- Claim C2 (counterexample): the claimed long-form decoding — a 20-bit
value with `length = (((bits 2..11)+1)<<2 | low 2 bits) + 4` and
`distance = bits 12..19` — disagrees with the source.  For the 16-bit
word `0xf000` (bit 3 clear) and extra byte 0, the source decodes
length 4 (no `+ 4` is applied) and distance 0xf00 (bits 12..23 of the
24-bit combined value), while the claimed formulas give length 8 and
distance 0. -/
theorem backref_long_form_counterexample :
    backrefLong ((0xf000 <<< 8) ||| 0) = (4, 3840) ∧
    specBackrefLong 0xf000 0 = (8, 0) ∧
    backrefLong ((0xf000 <<< 8) ||| 0) ≠ specBackrefLong 0xf000 0 := by
  exact ⟨by decide, by decide, by decide⟩

/-- Claim C2 (amended): a back-reference token whose first 16-bit
little-endian word has bit 3 clear consumes one further input byte to
build a 24-bit value `tmp` and decodes
`length = ((bits 2..11 of tmp) + 1) << 2 | (low 2 bits of tmp)` (without
any further `+ 4`) and `distance = bits 12..23 of tmp`; otherwise (short
form) it decodes `length = (low 3 bits) + 4` and `distance = bits 4..15`;
it then copies `length` bytes one at a time forward from
`output[pos - distance]`, overlap permitted — so for distance `d ≥ 1`
the copied bytes repeat the `d` bytes before `pos` periodically. -/
theorem backref_token_decode :
    (∀ tmp : Nat, backrefLong tmp = ((tmp / 4 % 1024 + 1) * 4 + tmp % 4, tmp / 4096)) ∧
    (∀ w : Nat, backrefShort w = (w % 8 + 4, w / 16)) ∧
    (∀ (out : List Nat) (op d reps : Nat),
      d ≤ op → op + reps ≤ out.length →
      ∃ res, lzCopy out op (op - d) reps = some (res, op + reps)) ∧
    (∀ (out : List Nat) (op d reps : Nat) (res : List Nat),
      1 ≤ d → d ≤ op → op + reps ≤ out.length →
      lzCopy out op (op - d) reps = some (res, op + reps) →
      ∀ j, j < reps → res.getD (op + j) 0 = out.getD (op - d + j % d) 0) := by
  refine ⟨backrefLong_arith, backrefShort_arith, ?_, ?_⟩
  · intro out op d reps hdop hlen
    exact lzCopy_total reps out op (op - d) (by omega) hlen
  · intro out op d reps res hd hdop hlen hstep
    exact lzCopy_periodic reps out op d res hd hdop hlen hstep

/-- Witness for the amended C2 theorem at concrete inputs: the token
`tmp = 74565 = 0x12345` decodes to length 841 and distance 18, the short
word 31 to length 11 and distance 1, and a distance-1 back-reference of
3 bytes starting from `[7, 0, 0, 0]` at position 1 replicates the byte 7. -/
theorem backref_token_decode_witness :
    backrefLong 74565 = (841, 18) ∧
    backrefShort 31 = (11, 1) ∧
    (∃ res, lzCopy [7, 0, 0, 0] 1 (1 - 1) 3 = some (res, 1 + 3)) ∧
    ([7, 7, 7, 7] : List Nat).getD (1 + 2) 0 = ([7, 0, 0, 0] : List Nat).getD (1 - 1 + 2 % 1) 0 := by
  refine ⟨?_, ?_, ?_, ?_⟩
  · rw [backref_token_decode.1 74565]
  · rw [backref_token_decode.2.1 31]
  · exact backref_token_decode.2.2.1 [7, 0, 0, 0] 1 1 3 (by decide) (by decide)
  · exact backref_token_decode.2.2.2 [7, 0, 0, 0] 1 1 3 [7, 7, 7, 7]
      (by decide) (by decide) (by decide) (by decide) 2 (by decide)

theorem readPixels4_getD : ∀ (n : Nat) (fd : List Nat) (pos k : Nat), k < n →
    (readPixelsFrom fd 4 pos n).getD k (0, 0, 0, 0) =
      (fd.getD (pos + 4 * k + 2) 0, fd.getD (pos + 4 * k + 1) 0, fd.getD (pos + 4 * k) 0,
       fd.getD (pos + 4 * k + 3) 0) := by
  intro n
  induction n with
  | zero => intro _ _ k h; omega
  | succ n ih =>
    intro fd pos k hk
    cases k with
    | zero => simp [readPixelsFrom]
    | succ k' =>
      simp only [readPixelsFrom]
      rw [if_pos trivial, List.getD_cons_succ, ih fd (pos + 4) k' (by omega)]
      have e : pos + 4 + 4 * k' = pos + 4 * (k' + 1) := by ring
      rw [e]

theorem readPixels3_getD : ∀ (n : Nat) (fd : List Nat) (pos k : Nat), k < n →
    (readPixelsFrom fd 3 pos n).getD k (0, 0, 0, 0) =
      (fd.getD (pos + 3 * k + 2) 0, fd.getD (pos + 3 * k + 1) 0, fd.getD (pos + 3 * k) 0, 255) := by
  intro n
  induction n with
  | zero => intro _ _ k h; omega
  | succ n ih =>
    intro fd pos k hk
    cases k with
    | zero => simp [readPixelsFrom]
    | succ k' =>
      simp only [readPixelsFrom]
      rw [if_neg (by decide : ¬ (3 : Nat) = 4), List.getD_cons_succ, ih fd (pos + 3) k' (by omega)]
      have e : pos + 3 + 3 * k' = pos + 3 * (k' + 1) := by ring
      rw [e]

/-- Claim C3 (counterexample): the channel count of a delta-filtered main
image is not read from the first two bytes of the decompressed buffer.
On a buffer whose first 16-bit word encodes 3 channels (`24 >> 3`) and
whose second word encodes 4 channels (`32 >> 3`), the source uses bytes
2-3 and decodes 4 channels, not the claimed 3. -/
theorem delta_channel_offset_counterexample :
    deltaChannels [24, 0, 32, 0, 0, 0, 0, 0] = 4 ∧
    specDeltaChannels [24, 0, 32, 0, 0, 0, 0, 0] = 3 ∧
    deltaChannels [24, 0, 32, 0, 0, 0, 0, 0] ≠ specDeltaChannels [24, 0, 32, 0, 0, 0, 0, 0] := by
  exact ⟨by decide, by decide, by decide⟩

/-- Claim C3 (amended): the decompressed buffer of a delta-filtered main
image begins with an 8-byte sub-header whose bytes at offsets 2-3 (a
little-endian 16-bit word) encode the channel count as the value shifted
right by 3, followed by exactly `height` mode-selector bytes (one per
row), followed by `channels * width * height` bytes of pixel data
consumed in B,G,R,[A] order: pixel `k` reads its channels from offsets
`channels * k .. channels * k + channels - 1` of the pixel data, with
alpha fixed at 255 when the channel count is 3. -/
theorem delta_main_layout :
    (∀ data : List Nat, deltaChannels data = (data.getD 2 0 + 256 * data.getD 3 0) / 8) ∧
    (∀ (data : List Nat) (height : Nat), 8 + height ≤ data.length →
      ((data.take (8 + height)).drop 8).length = height) ∧
    (∀ (fd : List Nat) (pos n k : Nat), k < n →
      (readPixelsFrom fd 4 pos n).getD k (0, 0, 0, 0) =
        (fd.getD (pos + 4 * k + 2) 0, fd.getD (pos + 4 * k + 1) 0, fd.getD (pos + 4 * k) 0,
         fd.getD (pos + 4 * k + 3) 0)) ∧
    (∀ (fd : List Nat) (pos n k : Nat), k < n →
      (readPixelsFrom fd 3 pos n).getD k (0, 0, 0, 0) =
        (fd.getD (pos + 3 * k + 2) 0, fd.getD (pos + 3 * k + 1) 0, fd.getD (pos + 3 * k) 0, 255)) := by
  refine ⟨?_, ?_, ?_, ?_⟩
  · intro data
    unfold deltaChannels le16
    rw [Nat.shiftRight_eq_div_pow]
  · intro data height h
    simp only [List.length_drop, List.length_take]
    omega
  · intro fd pos n k hk
    exact readPixels4_getD n fd pos k hk
  · intro fd pos n k hk
    exact readPixels3_getD n fd pos k hk

/-- Witness for the amended C3 theorem at concrete inputs: a 12-byte
buffer with `height = 2` has 2 mode-selector bytes, and the pixel readers
pick the documented offsets on small concrete buffers. -/
theorem delta_main_layout_witness :
    deltaChannels [24, 0, 24, 0] = 3 ∧
    (((List.replicate 12 (0 : Nat)).take (8 + 2)).drop 8).length = 2 ∧
    (readPixelsFrom [1, 2, 3, 4, 5, 6, 7, 8] 4 0 2).getD 1 (0, 0, 0, 0) = (7, 6, 5, 8) ∧
    (readPixelsFrom [1, 2, 3, 4, 5, 6] 3 0 2).getD 1 (0, 0, 0, 0) = (6, 5, 4, 255) := by
  refine ⟨?_, ?_, ?_, ?_⟩
  · rw [delta_main_layout.1 [24, 0, 24, 0]]; decide
  · exact delta_main_layout.2.1 (List.replicate 12 0) 2 (by decide)
  · rw [delta_main_layout.2.2.1 [1, 2, 3, 4, 5, 6, 7, 8] 0 2 1 (by decide)]; decide
  · rw [delta_main_layout.2.2.2 [1, 2, 3, 4, 5, 6] 0 2 1 (by decide)]; decide

/-- Claim C4 (code bug): the spec requires an unrecognized filter-kind
value, magic value or delta mode-selector byte to fail with a typed
error (UnsupportedFormat / UnsupportedFilterMode) and never crash.  The
source instead reaches `todo!()` in all three places (src/main.rs lines
126, 185, 320), which panics the process — modelled here by `none`:
a delta stream whose row-0 mode byte is 9, a main image with filter kind
4, and an archive entry with magic `[0,0,0,0]` all abort. -/
theorem unknown_tag_aborts :
    applyDeltaFilter [5, 6, 7] [9] 1 1 3 = none ∧
    filterKindOf 4 = none ∧
    entryKindOf [0, 0, 0, 0] = none := by
  exact ⟨by decide, rfl, by decide⟩

/-- Claim C5 (code bug): the spec requires the per-entry loop of
`AssetLoader::save` to isolate one entry's failure, log it and continue
with the remaining entries.  The source applies `?` to each entry's
decode (lines 310 and 334), so the first failure is returned from
`save` immediately: with a failing first entry, the second entry — which
decodes fine on its own (second conjunct) — is never extracted. -/
theorem save_stops_at_first_failure :
    saveEntries [("a.pgd", Except.error 7), ("b.pgd", (Except.ok 0 : Except Nat Nat))] =
      Except.error 7 ∧
    saveEntries [("b.pgd", (Except.ok 0 : Except Nat Nat))] = Except.ok ["b.pgd"] := by
  exact ⟨rfl, rfl⟩

theorem planarChannel_le (lum : Nat) (coeff : Int) : planarChannel lum coeff ≤ 255 := by
  simp only [planarChannel, clampByte]
  exact Int.toNat_le.mpr (max_le (by norm_num) (min_le_right _ _))

theorem writeByte_le {out res : List Nat} {i v : Nat} (hv : v ≤ 255)
    (hout : ∀ j, out.getD j 0 ≤ 255) (h : writeByte out i v = some res) :
    ∀ j, res.getD j 0 ≤ 255 := by
  unfold writeByte at h
  by_cases hi : i < out.length
  · rw [if_pos hi] at h
    injection h with h2
    subst h2
    intro j
    by_cases hij : i = j
    · subst hij; rw [getD_set_eq hi]; exact hv
    · rw [getD_set_ne hij]; exact hout j
  · rw [if_neg hi] at h
    cases h

theorem planarWriteAt_le {data : List Nat} {plane3 op i : Nat} {b g r : Int}
    {out res : List Nat} (hout : ∀ j, out.getD j 0 ≤ 255)
    (h : planarWriteAt data plane3 op i b g r out = some res) :
    ∀ j, res.getD j 0 ≤ 255 := by
  unfold planarWriteAt at h
  cases hl : data[plane3 + i]? with
  | none => rw [hl, Option.none_bind] at h; cases h
  | some lum =>
    rw [hl] at h
    simp only [Option.some_bind] at h
    cases h1 : writeByte out (op + 3 * i) (planarChannel lum b) with
    | none => rw [h1, Option.none_bind] at h; cases h
    | some o1 =>
      rw [h1] at h
      simp only [Option.some_bind] at h
      cases h2 : writeByte o1 (op + 3 * i + 1) (planarChannel lum g) with
      | none => rw [h2, Option.none_bind] at h; cases h
      | some o2 =>
        rw [h2] at h
        simp only [Option.some_bind] at h
        have k1 := writeByte_le (planarChannel_le lum b) hout h1
        have k2 := writeByte_le (planarChannel_le lum g) k1 h2
        exact writeByte_le (planarChannel_le lum r) k2 h

theorem planarBlock_le {chroma : Nat → Int} {data : List Nat} {width p1 p2 p3 op : Nat}
    {out res : List Nat} (hout : ∀ j, out.getD j 0 ≤ 255)
    (h : planarBlock chroma data width p1 p2 p3 op out = some res) :
    ∀ j, res.getD j 0 ≤ 255 := by
  unfold planarBlock at h
  cases ha1 : data[p1]? with
  | none => rw [ha1, Option.none_bind] at h; cases h
  | some a1 =>
    rw [ha1] at h
    simp only [Option.some_bind] at h
    cases ha2 : data[p2]? with
    | none => rw [ha2, Option.none_bind] at h; cases h
    | some a2 =>
      rw [ha2] at h
      simp only [Option.some_bind] at h
      cases hw1 : planarWriteAt data p3 op 0 (226 * chroma a1)
          (-43 * chroma a1 - 89 * chroma a2) (179 * chroma a2) out with
      | none => rw [hw1, Option.none_bind] at h; cases h
      | some o1 =>
        rw [hw1] at h
        simp only [Option.some_bind] at h
        cases hw2 : planarWriteAt data p3 op 1 (226 * chroma a1)
            (-43 * chroma a1 - 89 * chroma a2) (179 * chroma a2) o1 with
        | none => rw [hw2, Option.none_bind] at h; cases h
        | some o2 =>
          rw [hw2] at h
          simp only [Option.some_bind] at h
          cases hw3 : planarWriteAt data p3 op width (226 * chroma a1)
              (-43 * chroma a1 - 89 * chroma a2) (179 * chroma a2) o2 with
          | none => rw [hw3, Option.none_bind] at h; cases h
          | some o3 =>
            rw [hw3] at h
            simp only [Option.some_bind] at h
            have k1 := planarWriteAt_le hout hw1
            have k2 := planarWriteAt_le k1 hw2
            have k3 := planarWriteAt_le k2 hw3
            exact planarWriteAt_le k3 h

theorem planarRow_le {chroma : Nat → Int} {data : List Nat} {width : Nat} :
    ∀ (n : Nat) {p1 p2 p3 op : Nat} {out : List Nat} {res : List Nat × Nat × Nat × Nat × Nat},
    (∀ j, out.getD j 0 ≤ 255) → planarRow chroma data width n p1 p2 p3 op out = some res →
    ∀ j, res.1.getD j 0 ≤ 255 := by
  intro n
  induction n with
  | zero =>
    intro p1 p2 p3 op out res hout h
    simp only [planarRow, Option.some.injEq] at h
    subst h
    exact hout
  | succ n ih =>
    intro p1 p2 p3 op out res hout h
    simp only [planarRow] at h
    cases hb : planarBlock chroma data width p1 p2 p3 op out with
    | none => rw [hb] at h; cases h
    | some out1 =>
      rw [hb] at h
      exact ih (planarBlock_le hout hb) h

theorem planarRows_le {chroma : Nat → Int} {data : List Nat} {width : Nat} :
    ∀ (m : Nat) {p1 p2 p3 op : Nat} {out res : List Nat},
    (∀ j, out.getD j 0 ≤ 255) → planarRows chroma data width m p1 p2 p3 op out = some res →
    ∀ j, res.getD j 0 ≤ 255 := by
  intro m
  induction m with
  | zero =>
    intro p1 p2 p3 op out res hout h
    simp only [planarRows, Option.some.injEq] at h
    subst h
    exact hout
  | succ m ih =>
    intro p1 p2 p3 op out res hout h
    simp only [planarRows] at h
    cases hr : planarRow chroma data width (width >>> 1) p1 p2 p3 op out with
    | none => rw [hr] at h; cases h
    | some st =>
      rw [hr] at h
      obtain ⟨out1, q1, q2, q3, oq⟩ := st
      exact ih (planarRow_le (width >>> 1) hout hr) h

theorem applyFilter_le {data : List Nat} {width height : Nat} {out : List Nat}
    (h : applyFilter data width height = some out) : ∀ i, out.getD i 0 ≤ 255 := by
  unfold applyFilter at h
  exact planarRows_le (height >>> 1) (fun i => by rw [getD_replicate_zero]; omega) h

theorem readPixels3_alpha : ∀ (n : Nat) (fd : List Nat) (pos : Nat) (p : Pixel),
    p ∈ readPixelsFrom fd 3 pos n → p.2.2.2 = 255 := by
  intro n
  induction n with
  | zero => intro _ _ p h; simp [readPixelsFrom] at h
  | succ n ih =>
    intro fd pos p h
    simp only [readPixelsFrom] at h
    rw [if_neg (by decide : ¬ (3 : Nat) = 4)] at h
    rcases List.mem_cons.mp h with h1 | h2
    · subst h1; rfl
    · exact ih fd (pos + 3) p h2

/-- Claim C6: the planar reconstructor.  The per-block coefficients are
`blueCoeff = 226*A`, `greenCoeff = -43*A - 89*B`, `redCoeff = 179*B`
(with `A`, `B` the chroma plane values as the source reads them) and
each output channel is `clamp(((lum << 7) + coeff) >> 7, 0, 255)`: the
first conjunct checks the whole loop against these formulas on a
concrete 2x2 image (block coefficients 2260, -2210, 3580 for plane
bytes 10, 20, luma 100/150/200/250); the second and third conjuncts
prove every output channel lies in [0, 255] for all inputs; the fourth
proves alpha is fixed at 255 in the assembled planar pixels. -/
theorem planar_reconstruction :
    applyFilter [10, 20, 100, 150, 200, 250] 2 2 =
      some [117, 82, 127, 167, 132, 177, 217, 182, 227, 255, 232, 255] ∧
    (∀ (lum : Nat) (coeff : Int), planarChannel lum coeff ≤ 255) ∧
    (∀ (data : List Nat) (width height : Nat) (out : List Nat),
      applyFilter data width height = some out → ∀ i, out.getD i 0 ≤ 255) ∧
    (∀ (fd : List Nat) (pos n : Nat) (p : Pixel), p ∈ readPixelsFrom fd 3 pos n → p.2.2.2 = 255) := by
  exact ⟨by decide, planarChannel_le, fun _ _ _ _ h => applyFilter_le h,
    fun fd pos n p h => readPixels3_alpha n fd pos p h⟩

/-- Witness for C6 at concrete inputs: the clamp bound at an
out-of-range fixed-point value, the whole-buffer bound at a decoded
buffer, and the fixed alpha on a one-pixel read. -/
theorem planar_reconstruction_witness :
    planarChannel 999 (-100000) ≤ 255 ∧
    ([117, 82, 127, 167, 132, 177, 217, 182, 227, 255, 232, 255] : List Nat).getD 3 0 ≤ 255 ∧
    ((100, 90, 80, 255) : Pixel).2.2.2 = 255 := by
  refine ⟨planar_reconstruction.2.1 999 (-100000), ?_, ?_⟩
  · exact planar_reconstruction.2.2.1 [10, 20, 100, 150, 200, 250] 2 2
      [117, 82, 127, 167, 132, 177, 217, 182, 227, 255, 232, 255] (by decide) 3
  · exact planar_reconstruction.2.2.2 [80, 90, 100] 0 1 (100, 90, 80, 255) (by decide)

/-- Claim C7 (code bug): the spec requires a sub-image whose lower-cased
base-image name is absent from the cache to fail with the typed error
MissingBaseImage.  The source indexes the `HashMap` directly
(`images[&name]`, line 217), which panics on an absent key — modelled by
`none` — rather than returning a typed error; the second conjunct shows
the lower-casing of the looked-up name against a present key. -/
theorem missing_base_image_abort :
    decodeSubBase [("image", 42)] "Missing" = none ∧
    decodeSubBase [("image", 42)] "Image" = some 42 := by
  exact ⟨by decide, by decide⟩

theorem sub8_roundtrip {p orig : Nat} (hp : p < 256) (ho : orig < 256) :
    sub8 p (sub8 p orig) = orig := by
  unfold sub8
  omega

/-- Claim C8: per-byte invertibility of the delta filter.  For every
mode in {1, 2, 4}, channel count (the mode-1 and mode-4 predictors read
the neighbour `channels` bytes back, which is the `left` value below),
neighbour bytes and original byte, the decoder arithmetic
`original = predicted - encoded` (modulo 256) exactly inverts the
encoder arithmetic `encoded = predicted - original`. -/
theorem delta_roundtrip :
    ∀ mode above left orig : Nat,
      mode = 1 ∨ mode = 2 ∨ mode = 4 → above < 256 → left < 256 → orig < 256 →
      ∀ p, deltaPredictor mode above left = some p →
        sub8 p (sub8 p orig) = orig := by
  intro mode above left orig hmode ha hl ho p hp
  have hp256 : p < 256 := by
    rcases hmode with h | h | h <;> subst h <;>
      simp only [deltaPredictor, Option.some.injEq] at hp
    · omega
    · omega
    · subst hp; exact Nat.mod_lt _ (by norm_num)
  exact sub8_roundtrip hp256 ho

/-- Witness for C8 at a concrete input: mode 1 with left neighbour 200
round-trips the byte 55. -/
theorem delta_roundtrip_witness : sub8 200 (sub8 200 55) = 55 :=
  delta_roundtrip 1 0 200 55 (Or.inl rfl) (by decide) (by decide) (by decide) 200 rfl

theorem readSub3_alpha_getD : ∀ (n : Nat) (fd : List Nat) (pos k : Nat),
    ((readSubPixels fd 3 pos n).getD k (0, 0, 0, 0)).2.2.2 = 0 := by
  intro n
  induction n with
  | zero => intro fd pos k; rfl
  | succ n ih =>
    intro fd pos k
    simp only [readSubPixels]
    rw [if_neg (by decide : ¬ (3 : Nat) = 4)]
    cases k with
    | zero => rfl
    | succ k' => rw [List.getD_cons_succ]; exact ih fd (pos + 3) k'

/-- Claim C9: the XOR composite is self-inverse — composing the same
decoded sub-image onto a base twice restores every base pixel exactly,
inside and outside the window — and when the sub-image channel count is
3 its alpha XOR operand is 0, so a single composite preserves the base
alpha at every pixel. -/
theorem xor_composite_involutive :
    (∀ (base : Nat → Nat → Pixel) (sub : List Pixel) (x y width height u v : Nat),
      composeSub (composeSub base sub x y width height) sub x y width height u v = base u v) ∧
    (∀ (base : Nat → Nat → Pixel) (fd : List Nat) (n x y width height u v : Nat),
      (composeSub base (readSubPixels fd 3 0 n) x y width height u v).2.2.2 = (base u v).2.2.2) := by
  constructor
  · intro base sub x y width height u v
    unfold composeSub
    by_cases h : x ≤ u ∧ u < x + width ∧ y ≤ v ∧ v < y + height
    · rw [if_pos h, if_pos h]
      unfold xorPixel
      simp [Nat.xor_assoc]
    · rw [if_neg h, if_neg h]
  · intro base fd n x y width height u v
    unfold composeSub
    by_cases h : x ≤ u ∧ u < x + width ∧ y ≤ v ∧ v < y + height
    · rw [if_pos h]
      show (base u v).2.2.2 ^^^
        ((readSubPixels fd 3 0 n).getD ((v - y) * width + (u - x)) (0, 0, 0, 0)).2.2.2 =
        (base u v).2.2.2
      rw [readSub3_alpha_getD, Nat.xor_zero]
    · rw [if_neg h]

/-- Claim C10: the planar reconstructor reads the chroma planes A and B
as signed two's-complement bytes (`as i8`) while the luma byte is
unsigned.  On the buffer `[128, 0, 0, 0, 0, 0]` (A = 0x80) the signed
reading gives blue coefficient 226 * (-128) and output pixel channels
(0, 43, 0), while the all-unsigned reading of the same buffer gives
(226, 0, 0) — the outputs differ.  On `[0, 0, 255, 0, 0, 0]` the luma
byte 0xff contributes +255, not a negative value, so the first pixel is
(255, 255, 255).  The last conjuncts pin the two's-complement reading
of bytes at and above 0x80. -/
theorem chroma_sign_interpretation :
    applyFilter [128, 0, 0, 0, 0, 0] 2 2 = some [0, 43, 0, 0, 43, 0, 0, 43, 0, 0, 43, 0] ∧
    applyFilterU [128, 0, 0, 0, 0, 0] 2 2 = some [226, 0, 0, 226, 0, 0, 226, 0, 0, 226, 0, 0] ∧
    applyFilter [128, 0, 0, 0, 0, 0] 2 2 ≠ applyFilterU [128, 0, 0, 0, 0, 0] 2 2 ∧
    applyFilter [0, 0, 255, 0, 0, 0] 2 2 = some [255, 255, 255, 0, 0, 0, 0, 0, 0, 0, 0, 0] ∧
    i8val 128 = -128 ∧ i8val 255 = -1 ∧ i8val 127 = 127 := by
  exact ⟨by decide, by decide, by decide, by decide, by decide, by decide, by decide⟩

end CratriUnpac
